import Mathlib

/-!
Shallow embedding of the fsfp fixed-point arithmetic crate.

A fixed-point type is a tuple (raw width W, signedness, BITS, SHIFT); a value
of such a type is its raw integer, modelled as an unbounded Int together with
the range invariant MIN <= raw <= MAX.  Machine arithmetic that can wrap is
modelled by explicit reduction modulo 2 ^ W; Rust panics (division by zero,
const-eval panics) are modelled by Option.none.  Rust float semantics enter
only through conversions; finite float arithmetic is idealized as exact
rational arithmetic (the spec leaves the rounding of finite products open),
while the NaN propagation and saturating casts of the float-to-int bridge are
modelled exactly.
-/

namespace Fsfp

/-- The compile-time data of one fixed-point type `FpXxx<BITS, SHIFT>`:
the raw container width `W` in bits, its signedness, and the two const
generics `BITS` and `SHIFT` (fp_impl.rs lines 44-51). -/
structure FpTy where
  width : Nat
  signed : Bool
  bits : Nat
  shift : Int

/-- Rust right shift on a raw integer value: arithmetic (sign propagating) for
signed containers, logical for unsigned ones.  On the mathematical integers
both are floor division by the corresponding power of two, which is exactly
Int division (ediv) by `2 ^ n`. -/
def sar (a : Int) (n : Nat) : Int := a / 2 ^ n

/-- Smallest value of the raw container type: `T::MIN` in Rust. -/
def FpTy.rawMin (t : FpTy) : Int :=
  if t.signed then -(2 ^ (t.width - 1)) else 0

/-- Largest value of the raw container type: `T::MAX` in Rust. -/
def FpTy.rawMax (t : FpTy) : Int :=
  if t.signed then 2 ^ (t.width - 1) - 1 else 2 ^ t.width - 1

/-- Raw value of the `MIN` constant (fp_impl.rs lines 52-59): `0` when
`BITS == 0`, otherwise `T::MIN >> (T::BITS - BITS)`. -/
def FpTy.MIN (t : FpTy) : Int :=
  if t.bits = 0 then 0 else sar t.rawMin (t.width - t.bits)

/-- Raw value of the `MAX` constant (fp_impl.rs lines 60-67): `0` when
`BITS == 0`, otherwise `T::MAX >> (T::BITS - BITS)`. -/
def FpTy.MAX (t : FpTy) : Int :=
  if t.bits = 0 then 0 else sar t.rawMax (t.width - t.bits)

/-- The range invariant of a live value of type `t`: the raw integer lies
between the MIN and MAX constants of the type (lib.rs lines 57-59 and 70-73). -/
def FpTy.inRange (t : FpTy) (v : Int) : Prop := t.MIN ≤ v ∧ v ≤ t.MAX

instance (t : FpTy) (v : Int) : Decidable (t.inRange v) :=
  inferInstanceAs (Decidable (_ ∧ _))

/-- Reduction of an integer into the value range of a `W`-bit signed
container: twos-complement wraparound, as performed by Rust wrapping
operations and by `as` casts into a signed type. -/
def wrapSigned (W : Nat) (v : Int) : Int :=
  (v + 2 ^ (W - 1)) % 2 ^ W - 2 ^ (W - 1)

/-- Reduction of an integer into the value range of a `W`-bit unsigned
container: reduction modulo `2 ^ W`, as performed by Rust wrapping operations
and by `as` casts into an unsigned type. -/
def wrapUnsigned (W : Nat) (v : Int) : Int := v % 2 ^ W

/-- Wraparound into a raw container of width `W` and the given signedness. -/
def wrapRaw (W : Nat) (sg : Bool) (v : Int) : Int :=
  if sg then wrapSigned W v else wrapUnsigned W v

/-! Operators from add_sub.rs.  Raw results are separated from the statically
derived output types; a raw function takes the shared container data. -/

/-- Output type of addition (add_sub.rs lines 21-25): same container, same
shift, `max(B0, B1) + 1` bits. -/
def addOutput (t0 t1 : FpTy) : FpTy :=
  ⟨t0.width, t0.signed, max t0.bits t1.bits + 1, t0.shift⟩

/-- Raw result of addition (add_sub.rs lines 26-34): `wrapping_add` on the
shared raw container. -/
def addRaw (W : Nat) (sg : Bool) (a b : Int) : Int := wrapRaw W sg (a + b)

/-- Output type of subtraction (add_sub.rs lines 40-45): always the signed
container of the same width, same shift, `max(B0, B1) + 1` bits. -/
def subOutput (t0 t1 : FpTy) : FpTy :=
  ⟨t0.width, true, max t0.bits t1.bits + 1, t0.shift⟩

/-- Raw result of subtraction (add_sub.rs lines 46-54): `wrapping_sub` on the
input raw container, then an `as` cast to the signed output container. -/
def subRaw (W : Nat) (sg : Bool) (a b : Int) : Int :=
  wrapSigned W (wrapRaw W sg (a - b))

/-- Output type of negation (add_sub.rs lines 56-63): signed container,
`B + 1` bits, same shift. -/
def negOutput (t : FpTy) : FpTy := ⟨t.width, true, t.bits + 1, t.shift⟩

/-- Raw result of negation (add_sub.rs lines 64-66): `as` cast of the raw
value to the signed output container, then negation in that container. -/
def negRaw (W : Nat) (a : Int) : Int := wrapSigned W (-(wrapSigned W a))

/-! Operators from mul_div.rs. -/

/-- Number of binary digits of a natural number, with explicit fuel so that
the definition is structural and kernel reducible. -/
def bitlenAux : Nat → Nat → Nat
  | 0, _ => 0
  | fuel + 1, n => if n = 0 then 0 else bitlenAux fuel (n / 2) + 1

/-- Number of binary digits of a natural number (`bitlen 0 = 0`). -/
def bitlen (n : Nat) : Nat := bitlenAux n n

/-- Rust `leading_zeros` of a value stored in a `W`-bit container: the number
of leading zero bits of its twos-complement bit pattern. -/
def leadingZeros (W : Nat) (x : Int) : Nat := W - bitlen (x % 2 ^ W).toNat

/-- Rust `leading_ones` of a value stored in a `W`-bit container: the number
of leading one bits of its twos-complement bit pattern, that is the leading
zeros of the complemented pattern. -/
def leadingOnes (W : Nat) (x : Int) : Nat :=
  W - bitlen (2 ^ W - 1 - x % 2 ^ W).toNat

/-- Bit width of the result of `mul_const` (mul_div.rs lines 10-21), computed
from the compile-time literal: `0` for literal `0`; for a negative literal,
`BITS + T::BITS - val.wrapping_sub(1).leading_ones()`; for a positive one,
`BITS + T::BITS - (val - 1).leading_zeros()`. -/
def mulConstBits (W : Nat) (sg : Bool) (BITS : Nat) (val : Int) : Nat :=
  if val = 0 then 0
  else if val < 0 then BITS + W - leadingOnes W (wrapRaw W sg (val - 1))
  else BITS + W - leadingZeros W (val - 1)

/-- Raw result of `mul_const` (mul_div.rs lines 22-24): the raw value times
the literal, in the raw container. -/
def mulConstRaw (W : Nat) (sg : Bool) (a val : Int) : Int :=
  wrapRaw W sg (a * val)

/-- Bit width of the result of `div_const` (mul_div.rs lines 26-37).  The
source raises an explicit divide-by-0 panic on the literal `0`, aborting
compile-time constant evaluation; the panic is modelled by `none`. -/
def divConstBits (W BITS : Nat) (val : Int) : Option Nat :=
  if val = 0 then none
  else if val < 0 then some (1 + BITS - (W - leadingOnes W val))
  else some (1 + BITS - (W - leadingZeros W val))

/-- Raw result of `div_const` (mul_div.rs lines 38-40): Rust integer division
truncates toward zero; division by the literal `0` does not compile (the
output type evaluates `div_const_bits`, which panics), modelled by `none`. -/
def divConstRaw (W : Nat) (sg : Bool) (a val : Int) : Option Int :=
  if val = 0 then none else some (wrapRaw W sg (Int.tdiv a val))

/-- Output type of same-signedness multiplication (mul_div.rs lines 42-48):
`B0 + B1` bits, shift `S0 + S1`. -/
def mulOutput (t0 t1 : FpTy) : FpTy :=
  ⟨t0.width, t0.signed, t0.bits + t1.bits, t0.shift + t1.shift⟩

/-- Raw result of same-signedness multiplication (mul_div.rs lines 49-51). -/
def mulRaw (W : Nat) (sg : Bool) (a b : Int) : Int := wrapRaw W sg (a * b)

/-- Output type of same-signedness division (mul_div.rs lines 53-62):
`B0 + (1 if signed else 0)` bits, shift `S0 - S1`. -/
def divOutput (t0 t1 : FpTy) : FpTy :=
  ⟨t0.width, t0.signed, t0.bits + (if t0.signed then 1 else 0),
    t0.shift - t1.shift⟩

/-- Raw result of same-signedness division (mul_div.rs lines 63-65): Rust
integer division truncates toward zero and panics on a zero divisor; the
panic is modelled by `none`. -/
def divRaw (W : Nat) (sg : Bool) (a b : Int) : Option Int :=
  if b = 0 then none else some (wrapRaw W sg (Int.tdiv a b))

/-- Output type of signed-times-unsigned multiplication (mul_div.rs lines
85-91): the signed container, `B0 + B1` bits, shift `S0 + S1`. -/
def mulOutputIU (t0 t1 : FpTy) : FpTy :=
  ⟨t0.width, true, t0.bits + t1.bits, t0.shift + t1.shift⟩

/-- Raw result of signed-times-unsigned multiplication (mul_div.rs lines
92-96): the unsigned right operand is `as` cast into the signed output
container, then multiplied. -/
def mulRawIU (W : Nat) (a b : Int) : Int :=
  wrapSigned W (a * wrapSigned W b)

/-- Output type of unsigned-times-signed multiplication (mul_div.rs lines
98-104): the signed container, `B0 + B1` bits, shift `S0 + S1`. -/
def mulOutputUI (t0 t1 : FpTy) : FpTy :=
  ⟨t0.width, true, t0.bits + t1.bits, t0.shift + t1.shift⟩

/-- Raw result of unsigned-times-signed multiplication (mul_div.rs lines
105-109): the unsigned left operand is `as` cast into the signed output
container, then multiplied. -/
def mulRawUI (W : Nat) (a b : Int) : Int :=
  wrapSigned W (wrapSigned W a * b)

/-- Output type of signed-divided-by-unsigned division (mul_div.rs lines
111-116): the signed container, `B0` bits, shift `S0 - S1`. -/
def divOutputIU (t0 t1 : FpTy) : FpTy :=
  ⟨t0.width, true, t0.bits, t0.shift - t1.shift⟩

/-- Raw result of signed-divided-by-unsigned division (mul_div.rs lines
117-121): the unsigned divisor is `as` cast into the signed output container
(a wrapping bit reinterpretation), then a truncating division is performed;
a zero divisor panics, modelled by `none`. -/
def divRawIU (W : Nat) (a b : Int) : Option Int :=
  if wrapSigned W b = 0 then none
  else some (wrapSigned W (Int.tdiv a (wrapSigned W b)))

/-- Output type of unsigned-divided-by-signed division (mul_div.rs lines
123-129): the signed container, `B0 + 1` bits, shift `S0 - S1`. -/
def divOutputUI (t0 t1 : FpTy) : FpTy :=
  ⟨t0.width, true, t0.bits + 1, t0.shift - t1.shift⟩

/-- Raw result of unsigned-divided-by-signed division (mul_div.rs lines
130-134): the unsigned dividend is `as` cast into the signed output
container, then a truncating division is performed; a zero divisor panics,
modelled by `none`. -/
def divRawUI (W : Nat) (a b : Int) : Option Int :=
  if b = 0 then none else some (wrapSigned W (Int.tdiv (wrapSigned W a) b))

/-- Bit width that the spec table in section 4.1 assigns to the division
output: `B0 + (1 if either operand is signed else 0)`.  Written from the
words of the spec, for comparison against the output types of the source. -/
def divBitsClaimed (t0 t1 : FpTy) : Nat :=
  t0.bits + (if t0.signed || t1.signed then 1 else 0)

/-! Constructors and conversions from lib.rs. -/

/-- The two-variant range error (lib.rs lines 40-44). -/
inductive RangeError
  | TooSmall
  | TooLarge
deriving DecidableEq

/-- Checked constructor `Fp::new` (lib.rs lines 86-94): `TooSmall` below the
MIN raw value, `TooLarge` above the MAX raw value, otherwise the raw value is
wrapped unchanged. -/
def FpTy.new (t : FpTy) (val : Int) : Except RangeError Int :=
  if val < t.MIN then .error .TooSmall
  else if val > t.MAX then .error .TooLarge
  else .ok val

/-! Float bridge.  A float is modelled as NaN or an exact rational; finite
arithmetic is idealized as exact (infinite precision), which the claims
settled against this model do not depend on, while NaN propagation,
NaN-insensitive comparisons and the saturating NaN-to-zero cast of Rust
float-to-int conversion are modelled exactly. -/

/-- A float value: NaN, or a finite value idealized as an exact rational.
Infinities do not arise in the modelled computations. -/
inductive FVal
  | nan
  | fin (q : ℚ)

/-- Rust `<` on floats: any comparison against NaN is false. -/
def fvLt : FVal → FVal → Prop
  | .fin a, .fin b => a < b
  | _, _ => False

instance (x y : FVal) : Decidable (fvLt x y) :=
  match x, y with
  | .fin a, .fin b => inferInstanceAs (Decidable (a < b))
  | .nan, .nan => .isFalse (fun h => h)
  | .nan, .fin _ => .isFalse (fun h => h)
  | .fin _, .nan => .isFalse (fun h => h)

/-- Rust `*` on floats: NaN propagates; finite products are idealized as
exact. -/
def fvMul : FVal → FVal → FVal
  | .fin a, .fin b => .fin (a * b)
  | _, _ => .nan

/-- The scale factor `2.powi(SHIFT)` as an exact rational. -/
def pow2 (s : Int) : ℚ := 2 ^ s

/-- Round a rational toward zero, as Rust float-to-int casts do. -/
def ratTrunc (q : ℚ) : Int := if q < 0 then ⌈q⌉ else ⌊q⌋

/-- Rust `as` cast from a float to the raw container of `t`: saturating at
the container bounds, with NaN mapped to zero. -/
def fCast (t : FpTy) (v : FVal) : Int :=
  match v with
  | .nan => 0
  | .fin q => max t.rawMin (min t.rawMax (ratTrunc q))

/-- Conversion `into_f32` or `into_f64` of a raw value of type `t`
(fp_impl.rs lines 86-100): when the static guard
`BITS - SHIFT - SIGNED <= MAX_EXP` fails the conversion panics (modelled by
`none`); otherwise the logical value `raw / 2 ^ SHIFT`.  The parameter `E` is
the maximum exponent of the float format (128 for f32, 1024 for f64). -/
def FpTy.intoF (t : FpTy) (E : Int) (raw : Int) : Option FVal :=
  if (t.bits : Int) - t.shift - (if t.signed then 1 else 0) ≤ E then
    some (.fin ((raw : ℚ) / pow2 t.shift))
  else none

/-- Checked conversion `from_f32` or `from_f64` (lib.rs lines 100-122 with
the unchecked casts of fp_impl.rs lines 75-81): the input is compared against
the logical MIN and MAX (as floats) before any scaling, then the scaled value
`val * 2.powi(SHIFT)` is cast into the raw container. -/
def FpTy.fromF (t : FpTy) (E : Int) (v : FVal) : Option (Except RangeError Int) :=
  match t.intoF E t.MIN with
  | none => none
  | some lo =>
    if fvLt v lo then some (.error .TooSmall)
    else
      match t.intoF E t.MAX with
      | none => none
      | some hi =>
        if fvLt hi v then some (.error .TooLarge)
        else some (.ok (fCast t (fvMul v (.fin (pow2 t.shift)))))

/-! Sign transforms from fp_impl.rs. -/

/-- Output type of `into_unsigned` (fp_impl.rs lines 144-161): the unsigned
container of the same width, `B - 1` bits, same shift. -/
def intoUnsignedOutput (t : FpTy) : FpTy :=
  ⟨t.width, false, t.bits - 1, t.shift⟩

/-- The checked `into_unsigned` (fp_impl.rs lines 151-160): some value with
the raw value reinterpreted in the unsigned container when the raw value is
nonnegative, and no value otherwise. -/
def FpTy.intoUnsigned (t : FpTy) (a : Int) : Option Int :=
  if 0 ≤ a then some (wrapUnsigned t.width a) else none

/-! Closed forms of the MIN and MAX constants, and range facts. -/

theorem ediv_pow_sub_one (n m : Nat) : ((2 : ℤ) ^ (n + m) - 1) / 2 ^ m = 2 ^ n - 1 := by
  have hm : (0 : ℤ) < 2 ^ m := by positivity
  have h : (2 : ℤ) ^ (n + m) - 1 = (2 ^ m - 1) + (2 ^ n - 1) * 2 ^ m := by
    rw [pow_add]; ring
  rw [h, Int.add_mul_ediv_right _ _ (ne_of_gt hm),
    Int.ediv_eq_zero_of_lt (by omega) (by omega)]
  ring

theorem MIN_zero_bits (t : FpTy) (h : t.bits = 0) : t.MIN = 0 := by
  simp [FpTy.MIN, h]

theorem MAX_zero_bits (t : FpTy) (h : t.bits = 0) : t.MAX = 0 := by
  simp [FpTy.MAX, h]

theorem MIN_signed (t : FpTy) (hs : t.signed = true) (h1 : 1 ≤ t.bits)
    (h2 : t.bits ≤ t.width) : t.MIN = -(2 ^ (t.bits - 1)) := by
  have hb0 : ¬ t.bits = 0 := by omega
  have hc : (0 : ℤ) < 2 ^ (t.width - t.bits) := by positivity
  unfold FpTy.MIN sar FpTy.rawMin
  rw [if_neg hb0, if_pos hs]
  have hsplit : (2 : ℤ) ^ (t.width - 1) = 2 ^ (t.bits - 1) * 2 ^ (t.width - t.bits) := by
    rw [← pow_add]; congr 1; omega
  rw [hsplit, ← neg_mul, Int.mul_ediv_cancel _ (ne_of_gt hc)]

theorem MAX_signed (t : FpTy) (hs : t.signed = true) (h1 : 1 ≤ t.bits)
    (h2 : t.bits ≤ t.width) : t.MAX = 2 ^ (t.bits - 1) - 1 := by
  have hb0 : ¬ t.bits = 0 := by omega
  unfold FpTy.MAX sar FpTy.rawMax
  rw [if_neg hb0, if_pos hs]
  have hsplit : t.width - 1 = (t.bits - 1) + (t.width - t.bits) := by omega
  rw [hsplit, ediv_pow_sub_one]

theorem MIN_unsigned (t : FpTy) (hs : t.signed = false) : t.MIN = 0 := by
  simp [FpTy.MIN, sar, FpTy.rawMin, hs]

theorem MAX_unsigned (t : FpTy) (hs : t.signed = false) (h2 : t.bits ≤ t.width) :
    t.MAX = 2 ^ t.bits - 1 := by
  by_cases hb : t.bits = 0
  · simp [FpTy.MAX, hb]
  · unfold FpTy.MAX sar FpTy.rawMax
    rw [if_neg hb, if_neg (by simp [hs])]
    have hsplit : t.width = t.bits + (t.width - t.bits) := by omega
    calc ((2 : ℤ) ^ t.width - 1) / 2 ^ (t.width - t.bits)
        = ((2 : ℤ) ^ (t.bits + (t.width - t.bits)) - 1) / 2 ^ (t.width - t.bits) := by
          rw [← hsplit]
      _ = 2 ^ t.bits - 1 := ediv_pow_sub_one _ _

theorem rawMin_nonpos (t : FpTy) : t.rawMin ≤ 0 := by
  unfold FpTy.rawMin
  split
  · have : (0 : ℤ) < 2 ^ (t.width - 1) := by positivity
    omega
  · omega

theorem rawMax_nonneg (t : FpTy) : 0 ≤ t.rawMax := by
  unfold FpTy.rawMax
  have ha : (0 : ℤ) < 2 ^ (t.width - 1) := by positivity
  have hb : (0 : ℤ) < 2 ^ t.width := by positivity
  split <;> omega

theorem MIN_nonpos (t : FpTy) : t.MIN ≤ 0 := by
  unfold FpTy.MIN
  split
  · omega
  · have hc : (0 : ℤ) < 2 ^ (t.width - t.bits) := by positivity
    have h := Int.ediv_le_ediv hc (rawMin_nonpos t)
    simpa [sar] using h

theorem MAX_nonneg (t : FpTy) : 0 ≤ t.MAX := by
  unfold FpTy.MAX
  split
  · omega
  · exact Int.ediv_nonneg (rawMax_nonneg t) (by positivity)

theorem rawMin_le_MIN (t : FpTy) : t.rawMin ≤ t.MIN := by
  unfold FpTy.MIN
  split
  · exact rawMin_nonpos t
  · have hc : (0 : ℤ) < 2 ^ (t.width - t.bits) := by positivity
    rw [sar, Int.le_ediv_iff_mul_le hc]
    have h1 : (1 : ℤ) ≤ 2 ^ (t.width - t.bits) := hc
    have h2 := mul_le_mul_of_nonpos_left h1 (rawMin_nonpos t)
    simpa using h2

theorem MAX_le_rawMax (t : FpTy) : t.MAX ≤ t.rawMax := by
  unfold FpTy.MAX
  split
  · exact rawMax_nonneg t
  · exact Int.ediv_le_self _ (rawMax_nonneg t)

theorem wrapUnsigned_eq_self (W : Nat) (v : Int) (h0 : 0 ≤ v) (h1 : v < 2 ^ W) :
    wrapUnsigned W v = v := Int.emod_eq_of_lt h0 h1

theorem wrapSigned_eq_self (W : Nat) (v : Int) (hW : 1 ≤ W)
    (h0 : -(2 ^ (W - 1)) ≤ v) (h1 : v < 2 ^ (W - 1)) : wrapSigned W v = v := by
  unfold wrapSigned
  have h2 : (2 : ℤ) ^ W = 2 ^ (W - 1) * 2 := by
    rw [← pow_succ]; congr 1; omega
  rw [Int.emod_eq_of_lt (by omega) (by omega)]
  omega

theorem wrapSigned_emod (W : Nat) (v : Int) :
    wrapSigned W (v % 2 ^ W) = wrapSigned W v := by
  unfold wrapSigned
  rw [Int.emod_add_emod]

theorem inRange_signed_bounds (t : FpTy) (hs : t.signed = true)
    (hbw : t.bits ≤ t.width) {v : Int} (h : t.inRange v) :
    -(2 ^ (t.bits - 1)) ≤ v ∧ v ≤ 2 ^ (t.bits - 1) - 1 ∧ (t.bits = 0 → v = 0) := by
  obtain ⟨h1, h2⟩ := h
  by_cases hb : t.bits = 0
  · rw [MIN_zero_bits t hb] at h1
    rw [MAX_zero_bits t hb] at h2
    have hv : v = 0 := le_antisymm h2 h1
    simp [hb, hv]
  · rw [MIN_signed t hs (by omega) hbw] at h1
    rw [MAX_signed t hs (by omega) hbw] at h2
    exact ⟨h1, h2, fun c => absurd c hb⟩

theorem inRange_unsigned_bounds (t : FpTy) (hs : t.signed = false)
    (hbw : t.bits ≤ t.width) {v : Int} (h : t.inRange v) :
    0 ≤ v ∧ v ≤ 2 ^ t.bits - 1 := by
  obtain ⟨h1, h2⟩ := h
  rw [MIN_unsigned t hs] at h1
  rw [MAX_unsigned t hs hbw] at h2
  exact ⟨h1, h2⟩

/-! Claim theorems. -/

/-- C1: the range-closure claim fails on the code.  At the in-range operands
`FpI32<4, 0>::MIN` (raw -8) and `FpU32<32, 0>::MAX` (raw 4294967295), the
signed-divided-by-unsigned division casts the divisor into i32, turning
4294967295 into -1, and produces raw 8, which lies outside the range of the
statically derived output type `FpI32<4, 0>` whose MAX raw value is 7. -/
theorem c1_range_closure_violated_by_cross_div :
    FpTy.inRange ⟨32, true, 4, 0⟩ (-8) ∧ (⟨32, true, 4, 0⟩ : FpTy).MIN = -8 ∧
    FpTy.inRange ⟨32, false, 32, 0⟩ 4294967295 ∧
    (⟨32, false, 32, 0⟩ : FpTy).MAX = 4294967295 ∧
    divRawIU 32 (-8) 4294967295 = some 8 ∧
    divOutputIU ⟨32, true, 4, 0⟩ ⟨32, false, 32, 0⟩ = ⟨32, true, 4, 0⟩ ∧
    (⟨32, true, 4, 0⟩ : FpTy).MAX = 7 ∧
    ¬ FpTy.inRange ⟨32, true, 4, 0⟩ 8 := by
  refine ⟨by decide, by decide, by decide, by decide, by decide, rfl, by decide, by decide⟩

/-- C3 counterexample: the claim says the division output has bit width
`B0 + (1 if either operand is signed else 0)`; for a signed dividend and an
unsigned divisor the code instead emits `B0` bits, e.g. dividing a signed
4-bit value by an unsigned 5-bit value yields a 4-bit output, not 5. -/
theorem c3_div_output_bits_counterexample :
    (divOutputIU ⟨32, true, 4, 0⟩ ⟨32, false, 5, 0⟩).bits = 4 ∧
    divBitsClaimed ⟨32, true, 4, 0⟩ ⟨32, false, 5, 0⟩ = 5 ∧
    (divOutputIU ⟨32, true, 4, 0⟩ ⟨32, false, 5, 0⟩).bits ≠
      divBitsClaimed ⟨32, true, 4, 0⟩ ⟨32, false, 5, 0⟩ := by
  refine ⟨rfl, rfl, by decide⟩

/-- C3 (amended): for all four signedness pairings, the division output type
has bit width `B0 + (1 if the divisor is signed else 0)`, shift `S0 - S1`,
and is signed iff either operand is signed. -/
theorem c3_div_output_shape (t0 t1 : FpTy) :
    (t0.signed = t1.signed →
      (divOutput t0 t1).bits = t0.bits + (if t1.signed then 1 else 0) ∧
      (divOutput t0 t1).signed = (t0.signed || t1.signed) ∧
      (divOutput t0 t1).shift = t0.shift - t1.shift) ∧
    (t0.signed = true → t1.signed = false →
      (divOutputIU t0 t1).bits = t0.bits + (if t1.signed then 1 else 0) ∧
      (divOutputIU t0 t1).signed = (t0.signed || t1.signed) ∧
      (divOutputIU t0 t1).shift = t0.shift - t1.shift) ∧
    (t0.signed = false → t1.signed = true →
      (divOutputUI t0 t1).bits = t0.bits + (if t1.signed then 1 else 0) ∧
      (divOutputUI t0 t1).signed = (t0.signed || t1.signed) ∧
      (divOutputUI t0 t1).shift = t0.shift - t1.shift) := by
  refine ⟨fun h => ?_, fun h0 h1 => ?_, fun h0 h1 => ?_⟩
  · simp [divOutput, h]
  · simp [divOutputIU, h0, h1]
  · simp [divOutputUI, h0, h1]

/-- C3 witness: the amended output-shape rule evaluated on concrete types of
each pairing. -/
theorem c3_div_output_shape_witness :
    (divOutput ⟨32, true, 4, 0⟩ ⟨32, true, 5, 1⟩).bits = 4 + (if true then 1 else 0) ∧
    (divOutputIU ⟨32, true, 4, 0⟩ ⟨32, false, 5, 1⟩).bits = 4 + (if false then 1 else 0) ∧
    (divOutputUI ⟨32, false, 4, 0⟩ ⟨32, true, 5, 1⟩).bits = 4 + (if true then 1 else 0) :=
  ⟨((c3_div_output_shape ⟨32, true, 4, 0⟩ ⟨32, true, 5, 1⟩).1 rfl).1,
   ((c3_div_output_shape ⟨32, true, 4, 0⟩ ⟨32, false, 5, 1⟩).2.1 rfl rfl).1,
   ((c3_div_output_shape ⟨32, false, 4, 0⟩ ⟨32, true, 5, 1⟩).2.2 rfl rfl).1⟩

/-- C5: the checked constructor fails with TooSmall exactly below the MIN
raw value, with TooLarge exactly above the MAX raw value, and otherwise
returns the raw value unchanged. -/
theorem c5_new_checks (t : FpTy) (v : Int) :
    (t.new v = .error .TooSmall ↔ v < t.MIN) ∧
    (t.new v = .error .TooLarge ↔ v > t.MAX) ∧
    (t.MIN ≤ v → v ≤ t.MAX → t.new v = .ok v) := by
  have hmin := MIN_nonpos t
  have hmax := MAX_nonneg t
  unfold FpTy.new
  split_ifs with h1 h2
  · exact ⟨by simp [h1], by simp; omega, fun hA _ => absurd h1 (not_lt.mpr hA)⟩
  · exact ⟨by simp; omega, by simp [h2], fun _ hB => absurd h2 (not_lt.mpr hB)⟩
  · exact ⟨by simp; omega, by simp; omega, fun _ _ => rfl⟩

/-- C5 witness: one raw unit beyond each boundary of `FpI32<8, 0>` fails with
the matching variant, and an in-range raw value is wrapped unchanged. -/
theorem c5_new_checks_witness :
    FpTy.new ⟨32, true, 8, 0⟩ 128 = .error .TooLarge ∧
    FpTy.new ⟨32, true, 8, 0⟩ (-129) = .error .TooSmall ∧
    FpTy.new ⟨32, true, 8, 0⟩ 127 = .ok 127 :=
  ⟨(c5_new_checks ⟨32, true, 8, 0⟩ 128).2.1.mpr (by decide),
   (c5_new_checks ⟨32, true, 8, 0⟩ (-129)).1.mpr (by decide),
   (c5_new_checks ⟨32, true, 8, 0⟩ 127).2.2 (by decide) (by decide)⟩

/-- C9: a zero divisor makes every runtime division panic (modelled by
`none`, never a RangeError or a value), and `div_const_bits` at the literal 0
panics during constant evaluation (modelled by `none`). -/
theorem c9_div_by_zero_aborts (W BITS : Nat) (sg : Bool) (a : Int) (hW : 1 ≤ W) :
    divRaw W sg a 0 = none ∧ divRawIU W a 0 = none ∧ divRawUI W a 0 = none ∧
    divConstBits W BITS 0 = none := by
  have h2 : (2 : ℤ) ^ W = 2 ^ (W - 1) * 2 := by
    rw [← pow_succ]; congr 1; omega
  have h1 : (0 : ℤ) < 2 ^ (W - 1) := by positivity
  have hzero : wrapSigned W 0 = 0 := by
    unfold wrapSigned
    rw [zero_add, Int.emod_eq_of_lt (by omega) (by omega)]
    omega
  exact ⟨by simp [divRaw], by simp [divRawIU, hzero], by simp [divRawUI],
    by simp [divConstBits]⟩

/-- C9 witness: division of a concrete 8-bit value by raw zero, and
`div_const_bits::<0>`, all panic. -/
theorem c9_div_by_zero_aborts_witness :
    divRaw 8 true 5 0 = none ∧ divRawIU 8 5 0 = none ∧ divRawUI 8 5 0 = none ∧
    divConstBits 8 4 0 = none :=
  c9_div_by_zero_aborts 8 4 true 5 (by omega)

/-- C2: for in-range operands sharing the raw container and shift, the raw
value of an addition equals the exact integer sum even though the code uses
`wrapping_add`, and the raw values of subtraction and negation equal the
exact difference and negation after the cast into the signed output
container. -/
theorem c2_add_sub_neg_raw_exact (W B0 B1 : Nat) (S : Int) (sg : Bool) (a b : Int)
    (hW : max B0 B1 + 1 ≤ W)
    (ha : FpTy.inRange ⟨W, sg, B0, S⟩ a)
    (hb : FpTy.inRange ⟨W, sg, B1, S⟩ b) :
    addRaw W sg a b = a + b ∧ subRaw W sg a b = a - b ∧ negRaw W a = -a := by
  have hW1 : 1 ≤ W := by omega
  have hp : (2 : ℤ) ^ W = 2 ^ (W - 1) * 2 := by
    rw [← pow_succ]; congr 1; omega
  cases sg with
  | false =>
    obtain ⟨hA0, hA1⟩ := inRange_unsigned_bounds _ rfl (show B0 ≤ W by omega) ha
    obtain ⟨hB0, hB1⟩ := inRange_unsigned_bounds _ rfl (show B1 ≤ W by omega) hb
    have a1 : a ≤ 2 ^ B0 - 1 := hA1
    have b1 : b ≤ 2 ^ B1 - 1 := hB1
    have m0 : (2 : ℤ) ^ B0 ≤ 2 ^ (W - 1) := pow_le_pow_right₀ (by norm_num) (by omega)
    have m1 : (2 : ℤ) ^ B1 ≤ 2 ^ (W - 1) := pow_le_pow_right₀ (by norm_num) (by omega)
    refine ⟨?_, ?_, ?_⟩
    · show wrapUnsigned W (a + b) = a + b
      exact wrapUnsigned_eq_self _ _ (by omega) (by omega)
    · show wrapSigned W (wrapUnsigned W (a - b)) = a - b
      rw [show wrapUnsigned W (a - b) = (a - b) % 2 ^ W from rfl, wrapSigned_emod]
      exact wrapSigned_eq_self _ _ hW1 (by omega) (by omega)
    · show wrapSigned W (-(wrapSigned W a)) = -a
      rw [wrapSigned_eq_self W a hW1 (by omega) (by omega)]
      exact wrapSigned_eq_self W _ hW1 (by omega) (by omega)
  | true =>
    obtain ⟨hA0, hA1, hAz⟩ := inRange_signed_bounds _ rfl (show B0 ≤ W by omega) ha
    obtain ⟨hB0, hB1, hBz⟩ := inRange_signed_bounds _ rfl (show B1 ≤ W by omega) hb
    have a0 : -(2 : ℤ) ^ (B0 - 1) ≤ a := hA0
    have a1 : a ≤ 2 ^ (B0 - 1) - 1 := hA1
    have b0 : -(2 : ℤ) ^ (B1 - 1) ≤ b := hB0
    have b1 : b ≤ 2 ^ (B1 - 1) - 1 := hB1
    by_cases hM : max B0 B1 = 0
    · have haz : a = 0 := hAz (show B0 = 0 by omega)
      have hbz : b = 0 := hBz (show B1 = 0 by omega)
      have hp1 : (0 : ℤ) < 2 ^ (W - 1) := by positivity
      have hz : wrapSigned W 0 = 0 := wrapSigned_eq_self W 0 hW1 (by omega) (by omega)
      subst haz hbz
      refine ⟨?_, ?_, ?_⟩
      · show wrapSigned W (0 + 0) = 0 + 0
        rw [add_zero, hz]
      · show wrapSigned W (wrapSigned W (0 - 0)) = 0 - 0
        rw [sub_zero, hz, hz]
      · show wrapSigned W (-(wrapSigned W 0)) = -0
        rw [hz, neg_zero, hz]
    · have hW2 : 2 ≤ W := by omega
      have m0 : (2 : ℤ) ^ (B0 - 1) ≤ 2 ^ (W - 2) := pow_le_pow_right₀ (by norm_num) (by omega)
      have m1 : (2 : ℤ) ^ (B1 - 1) ≤ 2 ^ (W - 2) := pow_le_pow_right₀ (by norm_num) (by omega)
      have hq : (2 : ℤ) ^ (W - 1) = 2 ^ (W - 2) * 2 := by
        rw [← pow_succ]; congr 1; omega
      refine ⟨?_, ?_, ?_⟩
      · show wrapSigned W (a + b) = a + b
        exact wrapSigned_eq_self _ _ hW1 (by omega) (by omega)
      · show wrapSigned W (wrapSigned W (a - b)) = a - b
        rw [wrapSigned_eq_self W (a - b) hW1 (by omega) (by omega)]
        exact wrapSigned_eq_self _ _ hW1 (by omega) (by omega)
      · show wrapSigned W (-(wrapSigned W a)) = -a
        rw [wrapSigned_eq_self W a hW1 (by omega) (by omega)]
        exact wrapSigned_eq_self W _ hW1 (by omega) (by omega)

/-- C2 witness: the raw arithmetic of add, sub and neg evaluated exactly on
concrete in-range 8-bit values. -/
theorem c2_add_sub_neg_raw_exact_witness :
    addRaw 8 true (-8) 3 = -8 + 3 ∧ subRaw 8 true (-8) 3 = -8 - 3 ∧
    negRaw 8 (-8) = -(-8) :=
  c2_add_sub_neg_raw_exact 8 4 3 0 true (-8) 3 (by omega) (by decide) (by decide)

/-- C4: the MIN and MAX raw values derived from width, signedness and bit
count: both are zero when `B = 0`; otherwise the shifted container extremes,
whose closed forms are `-(2 ^ (B - 1))` and `2 ^ (B - 1) - 1` when signed and
`0` and `2 ^ B - 1` when unsigned. -/
theorem c4_min_max_derivation (W B : Nat) (S : Int) (sg : Bool) (hBW : B ≤ W) :
    (B = 0 → (⟨W, sg, B, S⟩ : FpTy).MIN = 0 ∧ (⟨W, sg, B, S⟩ : FpTy).MAX = 0) ∧
    (1 ≤ B →
      (⟨W, sg, B, S⟩ : FpTy).MIN = (if sg then -(2 ^ (B - 1)) else 0) ∧
      (⟨W, sg, B, S⟩ : FpTy).MAX = (if sg then 2 ^ (B - 1) - 1 else 2 ^ B - 1)) := by
  constructor
  · intro h
    exact ⟨MIN_zero_bits _ h, MAX_zero_bits _ h⟩
  · intro h
    cases sg with
    | true =>
      refine ⟨?_, ?_⟩
      · rw [if_pos rfl]
        exact MIN_signed _ rfl h hBW
      · rw [if_pos rfl]
        exact MAX_signed _ rfl h hBW
    | false =>
      refine ⟨?_, ?_⟩
      · rw [if_neg (by decide)]
        exact MIN_unsigned _ rfl
      · rw [if_neg (by decide)]
        exact MAX_unsigned _ rfl hBW

/-- C4 witness: the derivation evaluated at the three examples of the spec,
(64, signed, B 0), (32, signed, B 8) and (16, unsigned, B 16). -/
theorem c4_min_max_derivation_witness :
    (⟨64, true, 0, 10⟩ : FpTy).MIN = 0 ∧ (⟨64, true, 0, 10⟩ : FpTy).MAX = 0 ∧
    (⟨32, true, 8, -2⟩ : FpTy).MIN = -128 ∧ (⟨32, true, 8, -2⟩ : FpTy).MAX = 127 ∧
    (⟨16, false, 16, -5⟩ : FpTy).MIN = 0 ∧ (⟨16, false, 16, -5⟩ : FpTy).MAX = 65535 := by
  have h1 := c4_min_max_derivation 64 0 10 true (by omega)
  have h2 := c4_min_max_derivation 32 8 (-2) true (by omega)
  have h3 := c4_min_max_derivation 16 16 (-5) false (by omega)
  obtain ⟨h2a, h2b⟩ := h2.2 (by omega)
  obtain ⟨h3a, h3b⟩ := h3.2 (by omega)
  refine ⟨(h1.1 rfl).1, (h1.1 rfl).2, ?_, ?_, ?_, ?_⟩
  · rw [h2a]; norm_num
  · rw [h2b]; norm_num
  · rw [h3a]; norm_num
  · rw [h3b]; norm_num

/-- C7: the constant-operand sizing is derived from the bit length of the
literal itself, not from a generic worst case.  Multiplying an in-range
4-bit value by the compile-time literal 4 yields a 6-bit output type with
raw value `raw * 4`, and by the literal 5 a 7-bit output type with raw
value `raw * 5`; dividing a 4-bit value by the 3-bit literals 4 or 5 yields
a 2-bit output type via the leading-zero count, and by the literal -1 a
5-bit output type via the leading-one count. -/
theorem c7_mul_const_sizing (W : Nat) (sg : Bool) (S : Int) (a : Int)
    (hW : 8 ≤ W) (ha : FpTy.inRange ⟨W, sg, 4, S⟩ a) :
    mulConstBits W sg 4 4 = 6 ∧ mulConstBits W sg 4 5 = 7 ∧
    mulConstRaw W sg a 4 = a * 4 ∧ mulConstRaw W sg a 5 = a * 5 ∧
    divConstBits W 4 4 = some 2 ∧ divConstBits W 4 5 = some 2 ∧
    divConstBits W 4 (-1) = some 5 := by
  have hW1 : 1 ≤ W := by omega
  have h256 : (256 : ℤ) ≤ 2 ^ W := by
    calc (256 : ℤ) = 2 ^ 8 := by norm_num
      _ ≤ 2 ^ W := pow_le_pow_right₀ (by norm_num) hW
  have e3 : ((3 : ℤ) % 2 ^ W) = 3 := Int.emod_eq_of_lt (by norm_num) (by omega)
  have e4 : ((4 : ℤ) % 2 ^ W) = 4 := Int.emod_eq_of_lt (by norm_num) (by omega)
  have e5 : ((5 : ℤ) % 2 ^ W) = 5 := Int.emod_eq_of_lt (by norm_num) (by omega)
  have l3 : leadingZeros W 3 = W - 2 := by
    unfold leadingZeros
    rw [e3]
    rfl
  have l4 : leadingZeros W 4 = W - 3 := by
    unfold leadingZeros
    rw [e4]
    rfl
  have l5 : leadingZeros W 5 = W - 3 := by
    unfold leadingZeros
    rw [e5]
    rfl
  have lneg1 : leadingOnes W (-1) = W := by
    unfold leadingOnes
    have hm : ((-1 : ℤ) % 2 ^ W) = 2 ^ W - 1 := by
      rw [show (-1 : ℤ) = (2 ^ W - 1) + (-1) * 2 ^ W by ring, Int.add_mul_emod_self]
      exact Int.emod_eq_of_lt (by omega) (by omega)
    rw [hm, show ((2 : ℤ) ^ W - 1 - (2 ^ W - 1)) = 0 by ring]
    rfl
  have hb1 : mulConstBits W sg 4 4 = 6 := by
    unfold mulConstBits
    rw [if_neg (by norm_num), if_neg (by norm_num),
      show (4 : ℤ) - 1 = 3 by norm_num, l3]
    omega
  have hb2 : mulConstBits W sg 4 5 = 7 := by
    unfold mulConstBits
    rw [if_neg (by norm_num), if_neg (by norm_num),
      show (5 : ℤ) - 1 = 4 by norm_num, l4]
    omega
  have hd1 : divConstBits W 4 4 = some 2 := by
    unfold divConstBits
    rw [if_neg (by norm_num), if_neg (by norm_num), l4]
    congr 1
    omega
  have hd2 : divConstBits W 4 5 = some 2 := by
    unfold divConstBits
    rw [if_neg (by norm_num), if_neg (by norm_num), l5]
    congr 1
    omega
  have hd3 : divConstBits W 4 (-1) = some 5 := by
    unfold divConstBits
    rw [if_neg (by norm_num), if_pos (by norm_num), lneg1]
    congr 1
    omega
  have h128 : (128 : ℤ) ≤ 2 ^ (W - 1) := by
    calc (128 : ℤ) = 2 ^ 7 := by norm_num
      _ ≤ 2 ^ (W - 1) := pow_le_pow_right₀ (by norm_num) (by omega)
  cases sg with
  | true =>
    obtain ⟨q0, q1, -⟩ := inRange_signed_bounds _ rfl (show 4 ≤ W by omega) ha
    have q2 : -(2 : ℤ) ^ 3 ≤ a := q0
    have q3 : a ≤ 2 ^ 3 - 1 := q1
    norm_num at q2 q3
    refine ⟨hb1, hb2, ?_, ?_, hd1, hd2, hd3⟩
    · exact wrapSigned_eq_self _ _ hW1 (by omega) (by omega)
    · exact wrapSigned_eq_self _ _ hW1 (by omega) (by omega)
  | false =>
    obtain ⟨q0, q1⟩ := inRange_unsigned_bounds _ rfl (show 4 ≤ W by omega) ha
    have q2 : a ≤ 2 ^ 4 - 1 := q1
    norm_num at q2
    refine ⟨hb1, hb2, ?_, ?_, hd1, hd2, hd3⟩
    · exact wrapUnsigned_eq_self _ _ (by omega) (by omega)
    · exact wrapUnsigned_eq_self _ _ (by omega) (by omega)

/-- C7 witness: the constant-multiply sizing and raw values on the concrete
type FpI32<4, 0> at raw value 7, together with the constant-divide sizing
for the literals 4, 5 and -1. -/
theorem c7_mul_const_sizing_witness :
    mulConstBits 32 true 4 4 = 6 ∧ mulConstBits 32 true 4 5 = 7 ∧
    mulConstRaw 32 true 7 4 = 7 * 4 ∧ mulConstRaw 32 true 7 5 = 7 * 5 ∧
    divConstBits 32 4 4 = some 2 ∧ divConstBits 32 4 5 = some 2 ∧
    divConstBits 32 4 (-1) = some 5 :=
  c7_mul_const_sizing 32 true 0 7 (by omega) (by decide)

/-- C8: on a signed in-range value, `into_unsigned` yields the raw value
unchanged in the unsigned output type of one bit less exactly when the raw
value is nonnegative, and yields no value (not a RangeError) when the raw
value is negative. -/
theorem c8_into_unsigned (t : FpTy) (a : Int) (hs : t.signed = true)
    (hb : 1 ≤ t.bits) (hbw : t.bits ≤ t.width) (ha : t.inRange a) :
    (0 ≤ a → t.intoUnsigned a = some a ∧ (intoUnsignedOutput t).inRange a) ∧
    (a < 0 → t.intoUnsigned a = none) := by
  obtain ⟨q0, q1, -⟩ := inRange_signed_bounds t hs hbw ha
  constructor
  · intro hpos
    have hlt : a < 2 ^ t.width := by
      have h1 : (2 : ℤ) ^ (t.bits - 1) ≤ 2 ^ t.width := pow_le_pow_right₀ (by norm_num) (by omega)
      omega
    refine ⟨?_, ?_, ?_⟩
    · unfold FpTy.intoUnsigned
      rw [if_pos hpos, wrapUnsigned_eq_self _ _ hpos hlt]
    · rw [MIN_unsigned _ rfl]
      exact hpos
    · rw [MAX_unsigned _ rfl (show t.bits - 1 ≤ t.width by omega)]
      exact q1
  · intro hneg
    unfold FpTy.intoUnsigned
    rw [if_neg (by omega)]

/-- C8 witness: `into_unsigned` on FpI32<8, 0> keeps raw 5 and in range, and
yields nothing on raw -5. -/
theorem c8_into_unsigned_witness :
    (FpTy.intoUnsigned ⟨32, true, 8, 0⟩ 5 = some 5 ∧
      (intoUnsignedOutput ⟨32, true, 8, 0⟩).inRange 5) ∧
    FpTy.intoUnsigned ⟨32, true, 8, 0⟩ (-5) = none :=
  ⟨(c8_into_unsigned ⟨32, true, 8, 0⟩ 5 rfl (by decide) (by decide) (by decide)).1
      (by decide),
   (c8_into_unsigned ⟨32, true, 8, 0⟩ (-5) rfl (by decide) (by decide) (by decide)).2
      (by decide)⟩

/-- C6: the checked float conversion compares the input against the logical
MIN and MAX bounds before any scaling, returning TooSmall exactly when the
input is below the logical MIN and TooLarge exactly when it is above the
logical MAX, and otherwise returns the value whose raw is the scaled input
`v * 2 ^ SHIFT` rounded toward zero. -/
theorem c6_from_float_checks (t : FpTy) (E : Int) (v : FVal)
    (hg : (t.bits : Int) - t.shift - (if t.signed then 1 else 0) ≤ E) :
    (t.fromF E v = some (.error .TooSmall) ↔
      fvLt v (.fin ((t.MIN : ℚ) / pow2 t.shift))) ∧
    (t.fromF E v = some (.error .TooLarge) ↔
      fvLt (.fin ((t.MAX : ℚ) / pow2 t.shift)) v) ∧
    (∀ q : ℚ, v = .fin q →
      ¬ fvLt v (.fin ((t.MIN : ℚ) / pow2 t.shift)) →
      ¬ fvLt (.fin ((t.MAX : ℚ) / pow2 t.shift)) v →
      t.fromF E v = some (.ok (ratTrunc (q * pow2 t.shift)))) := by
  have hp : (0 : ℚ) < pow2 t.shift := zpow_pos (by norm_num) _
  have hIm : t.intoF E t.MIN = some (.fin ((t.MIN : ℚ) / pow2 t.shift)) := by
    unfold FpTy.intoF
    rw [if_pos hg]
  have hIM : t.intoF E t.MAX = some (.fin ((t.MAX : ℚ) / pow2 t.shift)) := by
    unfold FpTy.intoF
    rw [if_pos hg]
  have hmm : (t.MIN : ℚ) ≤ (t.MAX : ℚ) :=
    Int.cast_le.mpr (le_trans (MIN_nonpos t) (MAX_nonneg t))
  have hlohi : (t.MIN : ℚ) / pow2 t.shift ≤ (t.MAX : ℚ) / pow2 t.shift :=
    (div_le_div_iff_of_pos_right hp).mpr hmm
  by_cases h1 : fvLt v (.fin ((t.MIN : ℚ) / pow2 t.shift))
  · have hres : t.fromF E v = some (.error .TooSmall) := by
      simp only [FpTy.fromF, hIm, hIM]
      rw [if_pos h1]
    refine ⟨by simp [hres, h1], ?_, fun q hq hn1 hn2 => absurd h1 hn1⟩
    rw [hres]
    constructor
    · intro h
      simp at h
    · intro h
      exfalso
      cases v with
      | nan => exact h
      | fin q =>
        have ha : q < (t.MIN : ℚ) / pow2 t.shift := h1
        have hb : (t.MAX : ℚ) / pow2 t.shift < q := h
        linarith
  · by_cases h2 : fvLt (.fin ((t.MAX : ℚ) / pow2 t.shift)) v
    · have hres : t.fromF E v = some (.error .TooLarge) := by
        simp only [FpTy.fromF, hIm, hIM]
        rw [if_neg h1, if_pos h2]
      refine ⟨?_, by simp [hres, h2], fun q hq hn1 hn2 => absurd h2 hn2⟩
      rw [hres]
      constructor
      · intro h
        simp at h
      · intro h
        exact absurd h h1
    · have hres : t.fromF E v =
          some (.ok (fCast t (fvMul v (.fin (pow2 t.shift))))) := by
        simp only [FpTy.fromF, hIm, hIM]
        rw [if_neg h1, if_neg h2]
      refine ⟨?_, ?_, ?_⟩
      · rw [hres]
        constructor
        · intro h
          simp at h
        · intro h
          exact absurd h h1
      · rw [hres]
        constructor
        · intro h
          simp at h
        · intro h
          exact absurd h h2
      · intro q hq hn1 hn2
        subst hq
        rw [hres]
        have h3 : ¬ (q < (t.MIN : ℚ) / pow2 t.shift) := h1
        have hx1 : (t.MIN : ℚ) ≤ q * pow2 t.shift :=
          (div_le_iff₀ hp).mp (not_lt.mp h3)
        have h4 : ¬ ((t.MAX : ℚ) / pow2 t.shift < q) := h2
        have hx2 : q * pow2 t.shift ≤ (t.MAX : ℚ) :=
          (le_div_iff₀ hp).mp (not_lt.mp h4)
        have hT1 : t.rawMin ≤ ratTrunc (q * pow2 t.shift) := by
          unfold ratTrunc
          split_ifs with hx
          · have h5 : (t.MIN : ℚ) ≤ (⌈q * pow2 t.shift⌉ : ℚ) :=
              le_trans hx1 (Int.le_ceil _)
            have h6 : t.MIN ≤ ⌈q * pow2 t.shift⌉ := by exact_mod_cast h5
            exact le_trans (rawMin_le_MIN t) h6
          · have h7 : (0 : ℤ) ≤ ⌊q * pow2 t.shift⌋ :=
              Int.floor_nonneg.mpr (not_lt.mp hx)
            exact le_trans (rawMin_nonpos t) h7
        have hT2 : ratTrunc (q * pow2 t.shift) ≤ t.rawMax := by
          unfold ratTrunc
          split_ifs with hx
          · have h7 : ⌈q * pow2 t.shift⌉ ≤ (0 : ℤ) :=
              Int.ceil_le.mpr (by exact_mod_cast hx.le)
            exact le_trans h7 (rawMax_nonneg t)
          · have h5 : (⌊q * pow2 t.shift⌋ : ℚ) ≤ (t.MAX : ℚ) :=
              le_trans (Int.floor_le _) hx2
            have h6 : ⌊q * pow2 t.shift⌋ ≤ t.MAX := by exact_mod_cast h5
            exact le_trans h6 (MAX_le_rawMax t)
        simp only [fvMul, fCast]
        rw [min_eq_right hT2, max_eq_right hT1]

/-- C6 witness: converting the float 3 into FpI32<8, 0> succeeds with raw
value 3 rounded toward zero from 3 times the unit scale. -/
theorem c6_from_float_checks_witness :
    FpTy.fromF ⟨32, true, 8, 0⟩ 128 (.fin 3) =
      some (.ok (ratTrunc (3 * pow2 (0 : Int)))) := by
  have hMIN : (⟨32, true, 8, 0⟩ : FpTy).MIN = -128 := by decide
  have hMAX : (⟨32, true, 8, 0⟩ : FpTy).MAX = 127 := by decide
  refine (c6_from_float_checks ⟨32, true, 8, 0⟩ 128 (.fin 3) (by norm_num)).2.2
    3 rfl ?_ ?_
  · show ¬ ((3 : ℚ) < (((⟨32, true, 8, 0⟩ : FpTy).MIN : ℚ) / pow2 0))
    rw [hMIN, pow2, zpow_zero]
    norm_num
  · show ¬ ((((⟨32, true, 8, 0⟩ : FpTy).MAX : ℚ) / pow2 0) < (3 : ℚ))
    rw [hMAX, pow2, zpow_zero]
    norm_num

/-- C10: NaN passes both range comparisons of the checked float conversion
(comparisons with NaN are false), the saturating cast maps it to raw 0, so
the conversion succeeds with a raw value that satisfies the type range
invariant. -/
theorem c10_nan_accepted (t : FpTy) (E : Int)
    (hg : (t.bits : Int) - t.shift - (if t.signed then 1 else 0) ≤ E) :
    t.fromF E .nan = some (.ok 0) ∧ t.inRange 0 := by
  have hIm : t.intoF E t.MIN = some (.fin ((t.MIN : ℚ) / pow2 t.shift)) := by
    unfold FpTy.intoF
    rw [if_pos hg]
  have hIM : t.intoF E t.MAX = some (.fin ((t.MAX : ℚ) / pow2 t.shift)) := by
    unfold FpTy.intoF
    rw [if_pos hg]
  constructor
  · simp only [FpTy.fromF, hIm, hIM]
    rw [if_neg (show ¬ fvLt FVal.nan (.fin ((t.MIN : ℚ) / pow2 t.shift)) from
          fun h => h),
      if_neg (show ¬ fvLt (.fin ((t.MAX : ℚ) / pow2 t.shift)) FVal.nan from
          fun h => h)]
    rfl
  · exact ⟨MIN_nonpos t, MAX_nonneg t⟩

/-- C10 witness: NaN is accepted by FpI32<8, 0> with raw value 0, in range. -/
theorem c10_nan_accepted_witness :
    FpTy.fromF ⟨32, true, 8, 0⟩ 128 .nan = some (.ok 0) ∧
    FpTy.inRange ⟨32, true, 8, 0⟩ 0 :=
  c10_nan_accepted ⟨32, true, 8, 0⟩ 128 (by norm_num)

end Fsfp
